import Mathlib

/-!
# Verification of the timeslotfinder core against its specification

Shallow embedding of the repository's core (files `src/domain/models.py`,
`src/domain/slot_calculator.py`, `timeslotfinder/services/timeslot_finder.py`).

Modelling conventions:
* An instant (a timezone-aware `pendulum.DateTime`) is a `Nat`: whole minutes
  elapsed since an epoch placed at a Monday 00:00 in the working timezone.
  The spec states the core "operates purely on already-resolved,
  already-timezone-normalized interval data", so one linear minute axis
  suffices; `day_of_week` of pendulum (0 = Monday .. 6 = Sunday, the convention
  the repository's own tests pin down) becomes `(t / 1440) % 7`.
* `TimeRange.__post_init__` raises on `start >= end`; fallible construction is
  embedded as `Except InvalidRangeError TimeRange`, and every Python function
  that may transitively construct a `TimeRange` returns an `Except`.
* Python's stable `sorted(key=lambda r: r.start)` is embedded as a stable
  insertion sort `sortByStart`.
* The `while current <= end_date` day loop of `_get_working_blocks` is embedded
  structurally with a fuel argument; the fuel passed by `get_working_blocks`
  is exactly the number of loop iterations (`(end_date + 1440 - current) / 1440`
  decreases by one per trip and is zero exactly when `current > end_date`), so
  the fueled function is extensionally the Python loop.
-/

/-- An instant: whole minutes since a Monday-00:00 epoch. -/
abbrev Instant := Nat

/-- Minutes in a day. -/
def minutesPerDay : Nat := 1440

/-- Midnight of the calendar day containing `t` (pendulum `start_of("day")`). -/
def startOfDay (t : Instant) : Instant := (t / minutesPerDay) * minutesPerDay

/-- Minute-of-day of an instant. -/
def timeOfDay (t : Instant) : Nat := t % minutesPerDay

/-- pendulum `day_of_week`: 0 = Monday .. 6 = Sunday (epoch day is a Monday). -/
def dayOfWeek (t : Instant) : Nat := (t / minutesPerDay) % 7

/-- Python `TimeRange` of `src/domain/models.py`: an immutable pair of instants.
The Python `__post_init__` invariant (`start < end`) is captured separately by
`TimeRange.valid` and by the checked constructor `TimeRange.mk?`. -/
structure TimeRange where
  start : Instant
  «end» : Instant
deriving DecidableEq

/-- The `ValueError` ("InvalidRangeError" in the spec's taxonomy) raised by
`TimeRange.__post_init__`, carrying the offending bounds. -/
structure InvalidRangeError where
  start : Instant
  «end» : Instant
deriving DecidableEq

/-- The invariant established by a successful Python `TimeRange(...)` call. -/
def TimeRange.valid (r : TimeRange) : Prop := r.start < r.«end»

instance (r : TimeRange) : Decidable r.valid :=
  inferInstanceAs (Decidable (r.start < r.«end»))

/-- Checked construction: `TimeRange.__post_init__` raises iff `start >= end`. -/
def TimeRange.mk? (start «end» : Instant) : Except InvalidRangeError TimeRange :=
  if start ≥ «end» then .error ⟨start, «end»⟩ else .ok ⟨start, «end»⟩

/-- Python `TimeRange.duration_minutes`: `int((end - start).total_seconds() / 60)`.
With minute-granular instants this is the (truncated) difference. -/
def TimeRange.durationMinutes (r : TimeRange) : Nat := r.«end» - r.start

/-- Python `TimeRange.overlaps`: `self.start < other.end and self.end > other.start`. -/
def TimeRange.overlaps (r other : TimeRange) : Bool :=
  decide (r.start < other.«end») && decide (r.«end» > other.start)

/-- Python `TimeRange.intersect`: `None` without overlap, else a freshly constructed
`TimeRange(max(starts), min(ends))` (whose construction may raise). -/
def TimeRange.intersect (r other : TimeRange) :
    Except InvalidRangeError (Option TimeRange) :=
  if ¬ r.overlaps other then .ok none
  else do
    let t ← TimeRange.mk? (max r.start other.start) (min r.«end» other.«end»)
    .ok (some t)

/-- Python `WorkingHours` of `src/domain/models.py`. `start_time`/`end_time` are
Python `datetime.time` values, embedded as minute-of-day numbers (a `time` is
always `< 24h`, i.e. `< 1440`; theorems take that as a hypothesis where they
need it). The `timezone` string plays no role in the computations. -/
structure WorkingHours where
  start_time : Nat
  end_time : Nat
  exclude_weekdays : List Nat
deriving DecidableEq

/-- Python `WorkingHours.is_working_day`: `dt.day_of_week not in self.exclude_weekdays`. -/
def WorkingHours.is_working_day (wh : WorkingHours) (dt : Instant) : Bool :=
  ! wh.exclude_weekdays.contains (dayOfWeek dt)

/-- Python `WorkingHours.get_working_hours_for_day`: `None` on a non-working day,
else `TimeRange(date.set(hour=start_time.hour, minute=start_time.minute, ...),
date.set(hour=end_time.hour, ...))`, i.e. the configured times on `date`'s
own calendar day. -/
def WorkingHours.get_working_hours_for_day (wh : WorkingHours) (date : Instant) :
    Except InvalidRangeError (Option TimeRange) :=
  if ¬ wh.is_working_day date then .ok none
  else do
    let r ← TimeRange.mk? (startOfDay date + wh.start_time) (startOfDay date + wh.end_time)
    .ok (some r)

/-- Python `TimeSlot` of `src/domain/models.py`. -/
structure TimeSlot where
  time_range : TimeRange
  participants : List String
deriving DecidableEq

/-- Python `SlotCalculator._clip_range_to_bounds`: `None` when the range lies outside
the bounds, otherwise a freshly constructed clipped `TimeRange`. -/
def clip_range_to_bounds (time_range : TimeRange) (min_bound max_bound : Instant) :
    Except InvalidRangeError (Option TimeRange) :=
  if time_range.«end» ≤ min_bound ∨ time_range.start ≥ max_bound then .ok none
  else do
    let r ← TimeRange.mk? (max time_range.start min_bound) (min time_range.«end» max_bound)
    .ok (some r)

/-- Body of the `while current <= end_date` loop of
`SlotCalculator._get_working_blocks`, with explicit fuel (see file header). -/
def workingBlocksAux (wh : WorkingHours) (start_date end_date : Instant) :
    Nat → Instant → Except InvalidRangeError (List TimeRange)
  | 0, _ => .ok []
  | fuel + 1, current =>
    if current ≤ end_date then do
      let owh ← wh.get_working_hours_for_day current
      let here ← match owh with
        | none => pure []
        | some working_hours => do
          let clipped ← clip_range_to_bounds working_hours start_date end_date
          match clipped with
          | none => pure ([] : List TimeRange)
          | some c => pure [c]
      let rest ← workingBlocksAux wh start_date end_date fuel (current + minutesPerDay)
      pure (here ++ rest)
    else .ok []

/-- Python `SlotCalculator._get_working_blocks`: iterate each day from
`start_date.start_of("day")` while `current <= end_date`. -/
def get_working_blocks (wh : WorkingHours) (start_date end_date : Instant) :
    Except InvalidRangeError (List TimeRange) :=
  workingBlocksAux wh start_date end_date
    ((end_date + minutesPerDay - startOfDay start_date) / minutesPerDay)
    (startOfDay start_date)

/-- Stable insertion of a range into a start-sorted list. -/
def insertByStart (r : TimeRange) : List TimeRange → List TimeRange
  | [] => [r]
  | s :: rest =>
    if r.start ≤ s.start then r :: s :: rest else s :: insertByStart r rest

/-- Python's stable `sorted(ranges, key=lambda r: r.start)`. -/
def sortByStart (l : List TimeRange) : List TimeRange :=
  l.foldr insertByStart []

/-- The cursor loop of `SlotCalculator._subtract_busy_from_block`:
`current_start` is the cursor; each busy range is clipped to the block, a free
range is emitted when the cursor is strictly before the clipped start, and the
cursor advances to `max(cursor, clipped end)`; after the loop a final free
range is emitted when the cursor is strictly before the block's end. -/
def subtractGo (working_block : TimeRange) (current_start : Instant) :
    List TimeRange → Except InvalidRangeError (List TimeRange)
  | [] =>
    if current_start < working_block.«end» then do
      let r ← TimeRange.mk? current_start working_block.«end»
      pure [r]
    else pure []
  | busy :: rest => do
    let clipped_busy_start := max busy.start working_block.start
    let clipped_busy_end := min busy.«end» working_block.«end»
    if current_start < clipped_busy_start then do
      let r ← TimeRange.mk? current_start clipped_busy_start
      let rs ← subtractGo working_block (max current_start clipped_busy_end) rest
      pure (r :: rs)
    else
      subtractGo working_block (max current_start clipped_busy_end) rest

/-- Python `SlotCalculator._subtract_busy_from_block`. -/
def subtract_busy_from_block (working_block : TimeRange) (busy_ranges : List TimeRange) :
    Except InvalidRangeError (List TimeRange) :=
  subtractGo working_block working_block.start (sortByStart busy_ranges)

/-- The per-block loop of `SlotCalculator._invert_busy_to_free`. -/
def invertGo (sorted_busy : List TimeRange) :
    List TimeRange → Except InvalidRangeError (List TimeRange)
  | [] => pure []
  | working_block :: rest => do
    let overlapping_busy := sorted_busy.filter (fun busy => working_block.overlaps busy)
    let here ←
      if overlapping_busy.isEmpty then pure [working_block]
      else subtract_busy_from_block working_block overlapping_busy
    let others ← invertGo sorted_busy rest
    pure (here ++ others)

/-- Python `SlotCalculator._invert_busy_to_free`. -/
def invert_busy_to_free (working_blocks busy_ranges : List TimeRange) :
    Except InvalidRangeError (List TimeRange) :=
  invertGo (sortByStart busy_ranges) working_blocks

/-- The loop of `SlotCalculator._merge_adjacent_ranges`; `last` is `merged[-1]`. -/
def mergeGo (last : TimeRange) :
    List TimeRange → Except InvalidRangeError (List TimeRange)
  | [] => pure [last]
  | current :: rest =>
    if current.start ≤ last.«end» then do
      let m ← TimeRange.mk? last.start (max last.«end» current.«end»)
      mergeGo m rest
    else do
      let ms ← mergeGo current rest
      pure (last :: ms)

/-- Python `SlotCalculator._merge_adjacent_ranges`. -/
def merge_adjacent_ranges (ranges : List TimeRange) :
    Except InvalidRangeError (List TimeRange) :=
  match sortByStart ranges with
  | [] => pure []
  | first :: rest => mergeGo first rest

/-- Inner loop of `SlotCalculator._intersect_two_lists` (one `range1` against
every `range2 in list2`, keeping the non-`None` intersections). -/
def intersectOne (range1 : TimeRange) :
    List TimeRange → Except InvalidRangeError (List TimeRange)
  | [] => pure []
  | range2 :: rest => do
    let o ← range1.intersect range2
    let rs ← intersectOne range1 rest
    pure (match o with | none => rs | some t => t :: rs)

/-- Both nested loops of `SlotCalculator._intersect_two_lists`. -/
def intersectAllPairs (list2 : List TimeRange) :
    List TimeRange → Except InvalidRangeError (List TimeRange)
  | [] => pure []
  | range1 :: rest => do
    let here ← intersectOne range1 list2
    let more ← intersectAllPairs list2 rest
    pure (here ++ more)

/-- Python `SlotCalculator._intersect_two_lists`: all pairwise intersections, then
`_merge_adjacent_ranges`. -/
def intersect_two_lists (list1 list2 : List TimeRange) :
    Except InvalidRangeError (List TimeRange) := do
  let intersections ← intersectAllPairs list2 list1
  merge_adjacent_ranges intersections

/-- The fold of `SlotCalculator._intersect_all_participants` over the remaining
participants, with the early exit on an empty intermediate result. -/
def intersectFold (acc : List TimeRange) :
    List (List TimeRange) → Except InvalidRangeError (List TimeRange)
  | [] => pure acc
  | l :: rest => do
    let acc2 ← intersect_two_lists acc l
    if acc2.isEmpty then pure [] else intersectFold acc2 rest

/-- Python `SlotCalculator._intersect_all_participants`. A Python dict iterates its
(unique) keys in insertion order, so the per-participant free-time map is an
ordered association list and the fold walks it front to back. -/
def intersect_all_participants (participant_free_times : List (String × List TimeRange)) :
    Except InvalidRangeError (List TimeRange) :=
  match participant_free_times with
  | [] => pure []
  | (_, first) :: rest => intersectFold first (rest.map Prod.snd)

/-- Step 2 of `SlotCalculator.find_available_slots`: build the per-participant
free-time map in the iteration order of `busy_times`. -/
def computeFreeTimes (working_blocks : List TimeRange)  :
    List (String × List TimeRange) →
    Except InvalidRangeError (List (String × List TimeRange))
  | [] => pure []
  | (email, busy_ranges) :: rest => do
    let free ← invert_busy_to_free working_blocks busy_ranges
    let more ← computeFreeTimes working_blocks rest
    pure ((email, free) :: more)

/-- Python `SlotCalculator.find_available_slots`. -/
def find_available_slots (wh : WorkingHours) (start_date end_date : Instant)
    (busy_times : List (String × List TimeRange)) (min_duration_minutes : Nat) :
    Except InvalidRangeError (List TimeSlot) :=
  let participants := busy_times.map Prod.fst
  if participants.isEmpty then .ok []
  else
    match get_working_blocks wh start_date end_date with
    | .error e => .error e
    | .ok working_blocks =>
      if working_blocks.isEmpty then .ok []
      else
        match computeFreeTimes working_blocks busy_times with
        | .error e => .error e
        | .ok participant_free_times =>
          match intersect_all_participants participant_free_times with
          | .error e => .error e
          | .ok common_free_times =>
            let valid_slots := common_free_times.filter
              (fun tr => decide (tr.durationMinutes ≥ min_duration_minutes))
            .ok (valid_slots.map (fun tr =>
              { time_range := tr, participants := participants }))

/-- An ordered association list standing for a Python `dict` (insertion order,
unique keys): lookup, `d.get(k, default)` handled at use sites. -/
def dictGet? : List (String × List TimeRange) → String → Option (List TimeRange)
  | [], _ => none
  | (k', v') :: rest, k => if k' = k then some v' else dictGet? rest k

/-- Python `k in d`. -/
def dictMem (d : List (String × List TimeRange)) (k : String) : Bool :=
  (dictGet? d k).isSome

/-- Python `d[k] = v`: replace in place if the key exists, else append. -/
def dictInsert : List (String × List TimeRange) → String → List TimeRange →
    List (String × List TimeRange)
  | [], k, v => [(k, v)]
  | (k', v') :: rest, k, v =>
    if k' = k then (k, v) :: rest else (k', v') :: dictInsert rest k v

/-- Python `TimeslotFinderService._ensure_busy_time_entries`: first give every
requested participant the entry `busy_times.get(participant, [])`, then append
any extra entries of the client response that are not yet present. -/
def ensure_busy_time_entries (participants : List String)
    (busy_times : List (String × List TimeRange)) : List (String × List TimeRange) :=
  let normalized := participants.foldl
    (fun n participant => dictInsert n participant ((dictGet? busy_times participant).getD []))
    []
  busy_times.foldl
    (fun n entry => if dictMem n entry.fst then n else dictInsert n entry.fst entry.snd)
    normalized

/-- Python `TimeslotFinderService.fetch_busy_times`, with the collaborator's response
(`get_schedule`'s return value) passed in as data: the service merely
normalizes it. -/
def fetch_busy_times (participants : List String)
    (schedule : List (String × List TimeRange)) : List (String × List TimeRange) :=
  ensure_busy_time_entries participants schedule

/-!
## Specification-side definitions

The following definitions are written from the specification's words (spec.md
sections 4.1-4.3), to be compared with the embedded code above. They use the
plain structure constructor: the spec describes the emitted ranges directly.
-/

/-- Spec 4.3 Step B, the subtraction walk as worded: "sort busy intervals by
start; walk a cursor starting at the block's start; for each busy interval
(clipped to the block bounds), if the cursor is before the busy interval's
clipped start, emit a free TimeRange from cursor to that start; advance the
cursor to max(cursor, busy interval's clipped end). After all busy intervals,
if the cursor is before the block's end, emit a final free range from cursor
to the block's end." -/
def specCursorWalk (block : TimeRange) (cursor : Instant) :
    List TimeRange → List TimeRange
  | [] => if cursor < block.«end» then [⟨cursor, block.«end»⟩] else []
  | busy :: rest =>
    let clippedStart := max busy.start block.start
    let clippedEnd := min busy.«end» block.«end»
    if cursor < clippedStart then
      ⟨cursor, clippedStart⟩ :: specCursorWalk block (max cursor clippedEnd) rest
    else
      specCursorWalk block (max cursor clippedEnd) rest

/-- Spec 4.3 Step B subtraction for one block: sort, then walk the cursor from
the block's start. -/
def specSubtract (block : TimeRange) (busy : List TimeRange) : List TimeRange :=
  specCursorWalk block block.start (sortByStart busy)

/-- Spec 4.3 Step D merge scan as worded: "for each subsequent range, if its
start is <= the running range's end, extend the running range's end to max of
the two; otherwise start a new running range." -/
def specMergeScan (running : TimeRange) : List TimeRange → List TimeRange
  | [] => [running]
  | r :: rest =>
    if r.start ≤ running.«end» then
      specMergeScan ⟨running.start, max running.«end» r.«end»⟩ rest
    else
      running :: specMergeScan r rest

/-- Spec 4.3 Step D: sort by start, then scan. -/
def specMerge (l : List TimeRange) : List TimeRange :=
  match sortByStart l with
  | [] => []
  | first :: rest => specMergeScan first rest

/-- Spec 4.2 `WorkingRangeFor(date)`: absent on a non-working day, else the
configured start/end times on the date's own calendar day. -/
def specWorkingRangeFor (wh : WorkingHours) (date : Instant) : Option TimeRange :=
  if dayOfWeek date ∈ wh.exclude_weekdays then none
  else some ⟨startOfDay date + wh.start_time, startOfDay date + wh.end_time⟩

/-- Spec 4.3 Step A clipping: "a block entirely outside the bound is dropped; a
partially-overlapping block is clipped to the bound, not dropped". A block is
entirely outside `[lo, hi]` when no interior point of it lies strictly inside,
i.e. when `block.end <= lo` or `block.start >= hi`. -/
def specClip (block : TimeRange) (lo hi : Instant) : Option TimeRange :=
  if block.«end» ≤ lo ∨ block.start ≥ hi then none
  else some ⟨max block.start lo, min block.«end» hi⟩

/-- The calendar days from `current` through `end_date` inclusive, stepping one
day, with the same fuel discipline as `workingBlocksAux`. -/
def dayList : Nat → Instant → Instant → List Instant
  | 0, _, _ => []
  | fuel + 1, current, end_date =>
    if current ≤ end_date then current :: dayList fuel (current + minutesPerDay) end_date
    else []

/-- Spec 4.3 Step A as worded: for each calendar day from
`start_date.start_of_day` through `end_date` inclusive, derive
`WorkingRangeFor(day)`; if present, clip it to `[start_date, end_date]`;
collect the survivors in day order. -/
def specWorkingBlocks (wh : WorkingHours) (start_date end_date : Instant) :
    List TimeRange :=
  (dayList ((end_date + minutesPerDay - startOfDay start_date) / minutesPerDay)
      (startOfDay start_date) end_date).filterMap
    (fun day => (specWorkingRangeFor wh day).bind
      (fun block => specClip block start_date end_date))

/-- Predicate used by the invariant claims: consecutive ranges of the list are
strictly separated (sorted with a positive gap). -/
def GapChain (l : List TimeRange) : Prop :=
  List.Pairwise (fun a b => a.«end» < b.start) l

/-- Predicate used by the invariant claims: the range lies inside one of the
given working blocks. -/
def ContainedIn (blocks : List TimeRange) (r : TimeRange) : Prop :=
  ∃ blk ∈ blocks, blk.start ≤ r.start ∧ r.«end» ≤ blk.«end»

/-!
## Basic lemmas
-/

theorem TimeRange.mk?_of_lt {s e : Instant} (h : s < e) :
    TimeRange.mk? s e = .ok ⟨s, e⟩ := by
  simp [TimeRange.mk?, Nat.not_le_of_lt h, Nat.not_le.mpr h]

theorem TimeRange.mk?_of_ge {s e : Instant} (h : e ≤ s) :
    TimeRange.mk? s e = .error ⟨s, e⟩ := by
  simp [TimeRange.mk?, h]

theorem TimeRange.mk?_ok_valid {s e : Instant} {r : TimeRange}
    (h : TimeRange.mk? s e = .ok r) : r = ⟨s, e⟩ ∧ r.valid := by
  by_cases hle : s ≥ e
  · simp [TimeRange.mk?, hle] at h
  · rw [TimeRange.mk?_of_lt (Nat.lt_of_not_le hle)] at h
    cases h
    exact ⟨rfl, Nat.lt_of_not_le hle⟩

theorem TimeRange.overlaps_iff {r s : TimeRange} :
    r.overlaps s = true ↔ r.start < s.«end» ∧ s.start < r.«end» := by
  simp [TimeRange.overlaps]

theorem mem_insertByStart {x r : TimeRange} {l : List TimeRange} :
    x ∈ insertByStart r l ↔ x = r ∨ x ∈ l := by
  induction l with
  | nil => simp [insertByStart]
  | cons s rest ih =>
    by_cases h : r.start ≤ s.start
    · simp [insertByStart, h]
    · simp [insertByStart, h, ih]
      tauto

theorem mem_sortByStart {x : TimeRange} {l : List TimeRange} :
    x ∈ sortByStart l ↔ x ∈ l := by
  induction l with
  | nil => simp [sortByStart]
  | cons r rest ih =>
    show x ∈ insertByStart r (sortByStart rest) ↔ _
    rw [mem_insertByStart]
    simp [ih]

theorem startOfDay_add_time {t c : Nat} (h : c < minutesPerDay) :
    startOfDay (startOfDay t + c) = startOfDay t := by
  simp only [startOfDay, minutesPerDay] at *
  generalize t / 1440 = q
  rw [Nat.add_comm, Nat.add_mul_div_right c q (by norm_num), Nat.div_eq_of_lt h]
  simp

theorem timeOfDay_startOfDay_add {t c : Nat} (h : c < minutesPerDay) :
    timeOfDay (startOfDay t + c) = c := by
  simp only [startOfDay, timeOfDay, minutesPerDay] at *
  generalize t / 1440 = q
  rw [Nat.add_comm, Nat.add_mul_mod_self_right, Nat.mod_eq_of_lt h]

/-!
## C6 — TimeRange construction
-/

/-- C6: constructing `TimeRange(start, end)` fails with `InvalidRangeError`
exactly when `start >= end`, succeeds otherwise, and every successful
construction satisfies the invariant `start < end`. -/
theorem timeRange_construction_spec :
    ∀ s e : Instant,
      (e ≤ s → TimeRange.mk? s e = .error ⟨s, e⟩)
      ∧ (s < e → TimeRange.mk? s e = .ok ⟨s, e⟩)
      ∧ (∀ r, TimeRange.mk? s e = .ok r → r.valid) := by
  intro s e
  refine ⟨TimeRange.mk?_of_ge, TimeRange.mk?_of_lt, ?_⟩
  intro r h
  exact (TimeRange.mk?_ok_valid h).2

/-- Witness for C6 at concrete inputs. -/
theorem timeRange_construction_spec_witness :
    TimeRange.mk? 300 180 = .error ⟨300, 180⟩ ∧ TimeRange.mk? 180 300 = .ok ⟨180, 300⟩ :=
  ⟨(timeRange_construction_spec 300 180).1 (by decide),
   (timeRange_construction_spec 180 300).2.1 (by decide)⟩

/-!
## C2 — Overlaps and Intersect
-/

/-- C2: `Overlaps` holds iff `r.start < s.end` and `r.end > s.start` (strict:
boundary touching does not overlap), and `Intersect` returns the range from
`max(starts)` to `min(ends)` when they overlap and the absent value (not an
error) otherwise. -/
theorem overlaps_intersect_spec :
    ∀ r s : TimeRange, r.valid → s.valid →
      (r.overlaps s = true ↔ r.start < s.«end» ∧ r.«end» > s.start)
      ∧ (r.overlaps s = true →
          r.intersect s = .ok (some ⟨max r.start s.start, min r.«end» s.«end»⟩))
      ∧ (r.overlaps s = false → r.intersect s = .ok none) := by
  intro r s hr hs
  refine ⟨by simp [TimeRange.overlaps], ?_, ?_⟩
  · intro hov
    have h := TimeRange.overlaps_iff.mp hov
    have hlt : max r.start s.start < min r.«end» s.«end» := by
      have h1 : r.start < r.«end» := hr
      have h2 : s.start < s.«end» := hs
      rw [Nat.max_lt, Nat.lt_min, Nat.lt_min]
      exact ⟨⟨h1, h.1⟩, h.2, h2⟩
    rw [TimeRange.intersect, if_neg (by simp [hov]), TimeRange.mk?_of_lt hlt]
    rfl
  · intro hov
    simp [TimeRange.intersect, hov]

/-- Witness for C2: ranges 09:00-12:00 and 11:00-14:00 overlap and intersect
in 11:00-12:00; 09:00-12:00 and 14:00-17:00 do not overlap. -/
theorem overlaps_intersect_spec_witness :
    ((TimeRange.mk 540 720).overlaps ⟨660, 840⟩ = true ↔ (540 : Nat) < 840 ∧ (720 : Nat) > 660)
    ∧ ((TimeRange.mk 540 720).overlaps ⟨660, 840⟩ = true →
        (TimeRange.mk 540 720).intersect ⟨660, 840⟩ = .ok (some ⟨max 540 660, min 720 840⟩))
    ∧ ((TimeRange.mk 540 720).overlaps ⟨840, 1020⟩ = false →
        (TimeRange.mk 540 720).intersect ⟨840, 1020⟩ = .ok none) :=
  ⟨(overlaps_intersect_spec ⟨540, 720⟩ ⟨660, 840⟩ (by decide) (by decide)).1,
   (overlaps_intersect_spec ⟨540, 720⟩ ⟨660, 840⟩ (by decide) (by decide)).2.1,
   (overlaps_intersect_spec ⟨540, 720⟩ ⟨840, 1020⟩ (by decide) (by decide)).2.2⟩

/-!
## C4 — WorkingHours policy
-/

/-- C4: `IsWorkingDay(date)` holds iff the date's weekday index (0=Monday ..
6=Sunday) is not excluded; `WorkingRangeFor(date)` is absent exactly on
non-working days and otherwise yields a range lying on the input's own
calendar day with the configured start and end times. -/
theorem working_hours_policy_spec :
    ∀ (wh : WorkingHours) (t : Instant),
      wh.start_time < wh.end_time → wh.end_time < minutesPerDay →
      ((wh.is_working_day t = true ↔ dayOfWeek t ∉ wh.exclude_weekdays)
      ∧ (wh.is_working_day t = false → wh.get_working_hours_for_day t = .ok none)
      ∧ (wh.is_working_day t = true →
          ∃ r, wh.get_working_hours_for_day t = .ok (some r)
            ∧ startOfDay r.start = startOfDay t
            ∧ startOfDay r.«end» = startOfDay t
            ∧ timeOfDay r.start = wh.start_time
            ∧ timeOfDay r.«end» = wh.end_time)) := by
  intro wh t hlt hday
  refine ⟨?_, ?_, ?_⟩
  · simp [WorkingHours.is_working_day]
  · intro h
    simp [WorkingHours.get_working_hours_for_day, h]
  · intro h
    have hst : wh.start_time < minutesPerDay := Nat.lt_trans hlt hday
    refine ⟨⟨startOfDay t + wh.start_time, startOfDay t + wh.end_time⟩, ?_, ?_, ?_, ?_, ?_⟩
    · rw [WorkingHours.get_working_hours_for_day, if_neg (by simp [h]),
        TimeRange.mk?_of_lt (Nat.add_lt_add_left hlt _)]
      rfl
    · exact startOfDay_add_time hst
    · exact startOfDay_add_time hday
    · exact timeOfDay_startOfDay_add hst
    · exact timeOfDay_startOfDay_add hday

/-- Witness for C4: a 09:00-17:00 policy excluding Saturday (5) and Sunday (6),
evaluated on an instant of day 0 (a Monday). -/
theorem working_hours_policy_spec_witness :
    (WorkingHours.mk 540 1020 [5, 6]).is_working_day 600 = true ∧
    ((WorkingHours.mk 540 1020 [5, 6]).is_working_day 600 = true →
      ∃ r, (WorkingHours.mk 540 1020 [5, 6]).get_working_hours_for_day 600 = .ok (some r)
        ∧ startOfDay r.start = startOfDay 600
        ∧ startOfDay r.«end» = startOfDay 600
        ∧ timeOfDay r.start = 540
        ∧ timeOfDay r.«end» = 1020) :=
  ⟨by decide,
   (working_hours_policy_spec ⟨540, 1020, [5, 6]⟩ 600 (by decide) (by decide)).2.2⟩

/-!
## C1 — per-block subtraction is the cursor algorithm
-/

theorem subtractGo_eq_specCursorWalk :
    ∀ (l : List TimeRange) (B : TimeRange) (cursor : Instant),
      subtractGo B cursor l = .ok (specCursorWalk B cursor l) := by
  intro l
  induction l with
  | nil =>
    intro B cursor
    by_cases h : cursor < B.«end»
    · simp [subtractGo, specCursorWalk, h, TimeRange.mk?_of_lt h] <;> rfl
    · simp [subtractGo, specCursorWalk, h] <;> rfl
  | cons b rest ih =>
    intro B cursor
    by_cases h : cursor < max b.start B.start
    · simp [subtractGo, specCursorWalk, h, TimeRange.mk?_of_lt h, ih] <;> rfl
    · simp [subtractGo, specCursorWalk, h, ih] <;> rfl

/-- C1: for every working block and every set of busy ranges overlapping it,
`_subtract_busy_from_block` returns exactly the free ranges of the spec's
cursor walk; in particular block 09:00-17:00 with busy 10:00-12:00 and
14:00-15:00 gives 09:00-10:00, 12:00-14:00, 15:00-17:00, and a participant
with no busy time keeps the whole block as a single free range. -/
theorem subtract_matches_cursor_walk :
    (∀ (B : TimeRange) (busy : List TimeRange),
        (∀ b ∈ busy, B.overlaps b = true) →
        subtract_busy_from_block B busy = .ok (specSubtract B busy))
    ∧ subtract_busy_from_block ⟨540, 1020⟩ [⟨600, 720⟩, ⟨840, 900⟩]
        = .ok [⟨540, 600⟩, ⟨720, 840⟩, ⟨900, 1020⟩]
    ∧ invert_busy_to_free [⟨540, 1020⟩] [] = .ok [⟨540, 1020⟩] := by
  refine ⟨?_, by rfl, by rfl⟩
  intro B busy _
  exact subtractGo_eq_specCursorWalk (sortByStart busy) B B.start

/-- Witness for C1 at a concrete block and busy list. -/
theorem subtract_matches_cursor_walk_witness :
    subtract_busy_from_block ⟨540, 1020⟩ [⟨600, 720⟩]
      = .ok (specSubtract ⟨540, 1020⟩ [⟨600, 720⟩]) :=
  subtract_matches_cursor_walk.1 ⟨540, 1020⟩ [⟨600, 720⟩] (by decide)

/-!
## C5 — merging is sort-then-scan
-/

theorem mergeGo_eq_specMergeScan :
    ∀ (l : List TimeRange) (last : TimeRange), last.valid → (∀ r ∈ l, r.valid) →
      mergeGo last l = .ok (specMergeScan last l) := by
  intro l
  induction l with
  | nil =>
    intro last _ _
    rfl
  | cons current rest ih =>
    intro last hlast hall
    by_cases h : current.start ≤ last.«end»
    · have hm : last.start < max last.«end» current.«end» :=
        Nat.lt_of_lt_of_le hlast (Nat.le_max_left _ _)
      have hih := ih ⟨last.start, max last.«end» current.«end»⟩ hm
        (fun r hr => hall r (List.mem_cons_of_mem _ hr))
      simp only [mergeGo, specMergeScan, h, if_true, TimeRange.mk?_of_lt hm]
      exact hih
    · have hih := ih current (hall current (List.mem_cons_self _ _))
        (fun r hr => hall r (List.mem_cons_of_mem _ hr))
      simp [mergeGo, specMergeScan, h, hih] <;> rfl

/-- C5: `_merge_adjacent_ranges` equals the spec scan (sort by start, extend
the running range while the next start is `<=` its end, else start a new one);
it is what runs after each pairwise-intersection fold step; and two intervals
meeting exactly at a boundary are merged into one. -/
theorem merge_matches_spec_scan :
    (∀ l : List TimeRange, (∀ r ∈ l, r.valid) →
        merge_adjacent_ranges l = .ok (specMerge l))
    ∧ (∀ l1 l2 : List TimeRange,
        intersect_two_lists l1 l2 = intersectAllPairs l2 l1 >>= merge_adjacent_ranges)
    ∧ merge_adjacent_ranges [⟨540, 600⟩, ⟨600, 660⟩] = .ok [⟨540, 660⟩] := by
  refine ⟨?_, fun l1 l2 => rfl, by rfl⟩
  intro l hall
  rw [merge_adjacent_ranges, specMerge]
  cases hs : sortByStart l with
  | nil => rfl
  | cons first rest =>
    have hmem : ∀ r ∈ sortByStart l, r.valid := fun r hr => hall r (mem_sortByStart.mp hr)
    rw [hs] at hmem
    exact mergeGo_eq_specMergeScan rest first
      (hmem first (List.mem_cons_self _ _))
      (fun r hr => hmem r (List.mem_cons_of_mem _ hr))

/-- Witness for C5 on a concrete list of valid ranges. -/
theorem merge_matches_spec_scan_witness :
    merge_adjacent_ranges [⟨720, 780⟩, ⟨540, 600⟩]
      = .ok (specMerge [⟨720, 780⟩, ⟨540, 600⟩]) :=
  merge_matches_spec_scan.1 [⟨720, 780⟩, ⟨540, 600⟩] (by decide)

/-!
## C8 — service-side busy-time normalization
-/

theorem dictGet?_insert_self (d : List (String × List TimeRange)) (k : String)
    (v : List TimeRange) : dictGet? (dictInsert d k v) k = some v := by
  induction d with
  | nil => simp [dictInsert, dictGet?]
  | cons e rest ih =>
    by_cases h : e.fst = k
    · simp [dictInsert, h, dictGet?]
    · simp [dictInsert, h, dictGet?, ih]

theorem dictGet?_insert_ne (d : List (String × List TimeRange)) (k k' : String)
    (v : List TimeRange) (h : k ≠ k') :
    dictGet? (dictInsert d k v) k' = dictGet? d k' := by
  induction d with
  | nil => simp [dictInsert, dictGet?, h]
  | cons e rest ih =>
    by_cases he : e.fst = k
    · simp [dictInsert, he, dictGet?, h]
    · simp [dictInsert, he, dictGet?, ih]

theorem normalizeLoop_get (busy_times : List (String × List TimeRange)) :
    ∀ (ps : List String) (acc : List (String × List TimeRange)) (p : String),
      (p ∈ ps ∨ dictGet? acc p = some ((dictGet? busy_times p).getD [])) →
      dictGet? (ps.foldl
          (fun n q => dictInsert n q ((dictGet? busy_times q).getD [])) acc) p
        = some ((dictGet? busy_times p).getD []) := by
  intro ps
  induction ps with
  | nil =>
    intro acc p hp
    rcases hp with hp | hp
    · cases hp
    · simpa using hp
  | cons q qs ih =>
    intro acc p hp
    rw [List.foldl_cons]
    by_cases hq : q = p
    · by_cases hmem : p ∈ qs
      · exact ih _ p (Or.inl hmem)
      · refine ih _ p (Or.inr ?_)
        rw [hq]
        exact dictGet?_insert_self acc p _
    · rcases hp with hp | hp
      · rcases List.mem_cons.mp hp with rfl | hmem
        · exact absurd rfl hq
        · exact ih _ p (Or.inl hmem)
      · exact ih _ p (Or.inr (by rw [dictGet?_insert_ne acc q p _ hq]; exact hp))

theorem extraLoop_preserves :
    ∀ (entries acc : List (String × List TimeRange)) (p : String) (v : List TimeRange),
      dictGet? acc p = some v →
      dictGet? (entries.foldl
          (fun n e => if dictMem n e.fst then n else dictInsert n e.fst e.snd) acc) p
        = some v := by
  intro entries
  induction entries with
  | nil => intro acc p v h; simpa using h
  | cons e rest ih =>
    intro acc p v h
    rw [List.foldl_cons]
    by_cases hmem : dictMem acc e.fst
    · exact ih _ p v (by simpa [hmem] using h)
    · by_cases hep : e.fst = p
      · subst hep
        exact absurd (by simp [dictMem, h]) hmem
      · refine ih _ p v ?_
        rw [if_neg hmem, dictGet?_insert_ne acc e.fst p _ hep]
        exact h

/-- C8: after normalization, every requested participant appears as a key of
the busy-time map; participants absent from the collaborator's response get an
empty busy list, and busy lists of present participants pass through
unchanged. -/
theorem service_normalization_spec :
    ∀ (participants : List String) (busy_times : List (String × List TimeRange))
      (p : String), p ∈ participants →
      dictGet? (fetch_busy_times participants busy_times) p
          = some ((dictGet? busy_times p).getD [])
      ∧ (dictGet? busy_times p = none →
          dictGet? (fetch_busy_times participants busy_times) p = some [])
      ∧ (∀ l, dictGet? busy_times p = some l →
          dictGet? (fetch_busy_times participants busy_times) p = some l) := by
  intro participants busy_times p hp
  have hmain : dictGet? (fetch_busy_times participants busy_times) p
      = some ((dictGet? busy_times p).getD []) := by
    unfold fetch_busy_times ensure_busy_time_entries
    exact extraLoop_preserves busy_times _ p _
      (normalizeLoop_get busy_times participants [] p (Or.inl hp))
  refine ⟨hmain, ?_, ?_⟩
  · intro hnone
    rw [hmain, hnone]
    rfl
  · intro l hsome
    rw [hmain, hsome]
    rfl

/-- Witness for C8: participant "b" is requested but missing from the client's
response, and ends up mapped to the empty busy list. -/
theorem service_normalization_spec_witness :
    dictGet? (fetch_busy_times ["a", "b"] [("a", [⟨540, 600⟩])]) "b"
        = some ((dictGet? [("a", [⟨540, 600⟩])] "b").getD [])
      ∧ (dictGet? [("a", [(⟨540, 600⟩ : TimeRange)])] "b" = none →
          dictGet? (fetch_busy_times ["a", "b"] [("a", [⟨540, 600⟩])]) "b" = some []) :=
  ⟨(service_normalization_spec ["a", "b"] [("a", [⟨540, 600⟩])] "b" (by simp)).1,
   (service_normalization_spec ["a", "b"] [("a", [⟨540, 600⟩])] "b" (by simp)).2.1⟩

/-!
## C3 — working blocks
-/

@[simp] theorem except_ok_bind {α β : Type} (a : α) (f : α → Except InvalidRangeError β) :
    (Except.ok a >>= f) = f a := rfl

@[simp] theorem except_error_bind {α β : Type} (e : InvalidRangeError)
    (f : α → Except InvalidRangeError β) :
    ((Except.error e : Except InvalidRangeError α) >>= f) = .error e := rfl

@[simp] theorem except_pure_eq {α : Type} (a : α) :
    (pure a : Except InvalidRangeError α) = .ok a := rfl

theorem isWorkingDay_iff {wh : WorkingHours} {t : Instant} :
    wh.is_working_day t = true ↔ dayOfWeek t ∉ wh.exclude_weekdays := by
  simp [WorkingHours.is_working_day]

theorem workingBlocksAux_eq_spec {wh : WorkingHours} {sd ed : Instant}
    (hlt : wh.start_time < wh.end_time) (hsd : sd < ed) :
    ∀ (fuel : Nat) (current : Instant),
      workingBlocksAux wh sd ed fuel current
        = .ok ((dayList fuel current ed).filterMap
            (fun day => (specWorkingRangeFor wh day).bind
              (fun block => specClip block sd ed))) := by
  intro fuel
  induction fuel with
  | zero => intro current; rfl
  | succ fuel ih =>
    intro current
    by_cases hcur : current ≤ ed
    · by_cases hwork : wh.is_working_day current
      · have hspecw : specWorkingRangeFor wh current
            = some ⟨startOfDay current + wh.start_time, startOfDay current + wh.end_time⟩ := by
          rw [specWorkingRangeFor, if_neg (isWorkingDay_iff.mp hwork)]
        have hw : wh.get_working_hours_for_day current
            = .ok (some ⟨startOfDay current + wh.start_time, startOfDay current + wh.end_time⟩) := by
          rw [WorkingHours.get_working_hours_for_day, if_neg (by simp [hwork]),
            TimeRange.mk?_of_lt (Nat.add_lt_add_left hlt _)]
          rfl
        set w : TimeRange :=
          ⟨startOfDay current + wh.start_time, startOfDay current + wh.end_time⟩ with hwdef
        by_cases hclip : w.«end» ≤ sd ∨ w.start ≥ ed
        · have hc : clip_range_to_bounds w sd ed = .ok none := by
            rw [clip_range_to_bounds, if_pos hclip]
          have hsc : specClip w sd ed = none := by
            rw [specClip, if_pos hclip]
          simp [workingBlocksAux, hcur, hw, hc, ih, dayList, hspecw, hsc]
        · have hvalid : max w.start sd < min w.«end» ed := by
            push_neg at hclip
            have h1 : w.start < w.«end» := Nat.add_lt_add_left hlt _
            rw [Nat.max_lt, Nat.lt_min, Nat.lt_min]
            exact ⟨⟨h1, hclip.2⟩, hclip.1, hsd⟩
          have hc : clip_range_to_bounds w sd ed
              = .ok (some ⟨max w.start sd, min w.«end» ed⟩) := by
            rw [clip_range_to_bounds, if_neg hclip, TimeRange.mk?_of_lt hvalid]
            rfl
          have hsc : specClip w sd ed = some ⟨max w.start sd, min w.«end» ed⟩ := by
            rw [specClip, if_neg hclip]
          simp [workingBlocksAux, hcur, hw, hc, ih, dayList, hspecw, hsc]
      · have hspecw : specWorkingRangeFor wh current = none := by
          rw [specWorkingRangeFor, if_pos]
          by_contra hmem
          exact hwork (isWorkingDay_iff.mpr hmem)
        have hw : wh.get_working_hours_for_day current = .ok none := by
          rw [WorkingHours.get_working_hours_for_day, if_pos (by simp [hwork])]
        simp [workingBlocksAux, hcur, hw, ih, dayList, hspecw]
    · simp [workingBlocksAux, hcur, dayList]

/-- C3 counterexample: with working hours 09:00-17:00 on day 0 and the
degenerate (but claim-permitted) window `start_date = end_date = 10:00`, the
code raises `InvalidRangeError` from clipping instead of computing the
described block list. -/
theorem working_blocks_claim_counterexample :
    ¬ (get_working_blocks ⟨540, 1020, [5, 6]⟩ 600 600
        = .ok (specWorkingBlocks ⟨540, 1020, [5, 6]⟩ 600 600)) := by
  intro h
  have h2 : (Except.error ⟨600, 600⟩ : Except InvalidRangeError (List TimeRange))
      = .ok (specWorkingBlocks ⟨540, 1020, [5, 6]⟩ 600 600) := h
  exact Except.noConfusion h2

/-- C3 (amended to a window with `start_date < end_date`): the working blocks
are exactly those of the spec's day iteration: every calendar day from
`start_date.start_of("day")` through `end_date` inclusive contributes its
working range, clipped to `[start_date, end_date]`, dropped when entirely
outside, in day order. -/
theorem working_blocks_match_spec :
    ∀ (wh : WorkingHours) (sd ed : Instant),
      wh.start_time < wh.end_time → sd < ed →
      get_working_blocks wh sd ed = .ok (specWorkingBlocks wh sd ed) := by
  intro wh sd ed hlt hsd
  exact workingBlocksAux_eq_spec hlt hsd _ _

/-- Witness for the amended C3: Friday 00:00 through Monday 24:00 with
weekends excluded. -/
theorem working_blocks_match_spec_witness :
    get_working_blocks ⟨540, 1020, [5, 6]⟩ 5760 11520
      = .ok (specWorkingBlocks ⟨540, 1020, [5, 6]⟩ 5760 11520) :=
  working_blocks_match_spec ⟨540, 1020, [5, 6]⟩ 5760 11520 (by decide) (by decide)

/-!
## C9 — monotonic duration filter
-/

/-- C9: with everything else fixed, every slot returned for threshold `D2` is
also returned for a smaller threshold `D1`: the filter drops exactly the
intervals whose duration is below the threshold, after all merging. -/
theorem duration_filter_monotone :
    ∀ (wh : WorkingHours) (sd ed : Instant) (bt : List (String × List TimeRange))
      (D1 D2 : Nat) (l2 : List TimeSlot), D1 < D2 →
      find_available_slots wh sd ed bt D2 = .ok l2 →
      ∃ l1, find_available_slots wh sd ed bt D1 = .ok l1 ∧ ∀ s ∈ l2, s ∈ l1 := by
  intro wh sd ed bt D1 D2 l2 hD h2
  by_cases hp : (bt.map Prod.fst).isEmpty
  · refine ⟨[], by simp [find_available_slots, hp], ?_⟩
    simp [find_available_slots, hp] at h2
    simp [← h2]
  · cases hgw : get_working_blocks wh sd ed with
    | error e => simp [find_available_slots, hp, hgw] at h2
    | ok wbs =>
      by_cases hwb : wbs.isEmpty
      · refine ⟨[], by simp [find_available_slots, hp, hgw, hwb], ?_⟩
        simp [find_available_slots, hp, hgw, hwb] at h2
        simp [← h2]
      · cases hft : computeFreeTimes wbs bt with
        | error e => simp [find_available_slots, hp, hgw, hwb, hft] at h2
        | ok pft =>
          cases hcm : intersect_all_participants pft with
          | error e => simp [find_available_slots, hp, hgw, hwb, hft, hcm] at h2
          | ok common =>
            simp [find_available_slots, hp, hgw, hwb, hft, hcm] at h2 ⊢
            intro s hs
            rw [← h2] at hs
            rcases List.mem_map.mp hs with ⟨tr, htr, rfl⟩
            rcases List.mem_filter.mp htr with ⟨hmem, hdur⟩
            simp only [decide_eq_true_eq] at hdur
            exact ⟨tr, ⟨hmem, by omega⟩, rfl⟩

/-- Witness for C9: one free working day of 480 minutes survives both the
480-minute and the 30-minute threshold. -/
theorem duration_filter_monotone_witness :
    ∃ l1, find_available_slots ⟨540, 1020, [5, 6]⟩ 0 1439 [("a", [])] 30 = .ok l1
      ∧ ∀ s ∈ [TimeSlot.mk ⟨540, 1020⟩ ["a"]], s ∈ l1 :=
  duration_filter_monotone ⟨540, 1020, [5, 6]⟩ 0 1439 [("a", [])] 30 480
    [TimeSlot.mk ⟨540, 1020⟩ ["a"]] (by decide) (by rfl)

/-!
## C7 — totality of the calculation
-/

theorem overlap_max_lt_min {r s : TimeRange} (hr : r.valid) (hs : s.valid)
    (hov : r.overlaps s = true) :
    max r.start s.start < min r.«end» s.«end» := by
  have h := TimeRange.overlaps_iff.mp hov
  rw [Nat.max_lt, Nat.lt_min, Nat.lt_min]
  exact ⟨⟨hr, h.1⟩, h.2, hs⟩

theorem subtractGo_ok_valid :
    ∀ (l : List TimeRange) (B : TimeRange) (cursor : Instant),
      ∃ free, subtractGo B cursor l = .ok free ∧ ∀ r ∈ free, r.valid := by
  intro l
  induction l with
  | nil =>
    intro B cursor
    by_cases h : cursor < B.«end»
    · refine ⟨[⟨cursor, B.«end»⟩], ?_, ?_⟩
      · simp [subtractGo, h, TimeRange.mk?_of_lt h]
      · intro r hr
        rcases List.mem_singleton.mp hr with rfl
        exact h
    · exact ⟨[], by simp [subtractGo, h], by simp⟩
  | cons b rest ih =>
    intro B cursor
    by_cases h : cursor < max b.start B.start
    · rcases ih B (max cursor (min b.«end» B.«end»)) with ⟨free, hok, hval⟩
      refine ⟨⟨cursor, max b.start B.start⟩ :: free, ?_, ?_⟩
      · simp [subtractGo, h, TimeRange.mk?_of_lt h, hok]
      · intro r hr
        rcases List.mem_cons.mp hr with rfl | hr
        · exact h
        · exact hval r hr
    · rcases ih B (max cursor (min b.«end» B.«end»)) with ⟨free, hok, hval⟩
      exact ⟨free, by simp [subtractGo, h, hok], hval⟩

theorem invertGo_ok_valid :
    ∀ (blocks sorted_busy : List TimeRange), (∀ b ∈ blocks, b.valid) →
      ∃ free, invertGo sorted_busy blocks = .ok free ∧ ∀ r ∈ free, r.valid := by
  intro blocks
  induction blocks with
  | nil => intro sb _; exact ⟨[], rfl, by simp⟩
  | cons wb rest ih =>
    intro sb hval
    rcases ih sb (fun b hb => hval b (List.mem_cons_of_mem _ hb)) with ⟨others, hok, hoval⟩
    by_cases hemp : (sb.filter (fun busy => wb.overlaps busy)).isEmpty
    · refine ⟨wb :: others, ?_, ?_⟩
      · simp [invertGo, hemp, hok]
      · intro r hr
        rcases List.mem_cons.mp hr with rfl | hr
        · exact hval _ (List.mem_cons_self _ _)
        · exact hoval r hr
    · rcases subtractGo_ok_valid
          (sortByStart (sb.filter (fun busy => wb.overlaps busy))) wb wb.start
        with ⟨here, hhok, hhval⟩
      refine ⟨here ++ others, ?_, ?_⟩
      · simp [invertGo, hemp, hok, subtract_busy_from_block, hhok]
      · intro r hr
        rcases List.mem_append.mp hr with hr | hr
        · exact hhval r hr
        · exact hoval r hr

theorem invert_ok_valid (working_blocks busy_ranges : List TimeRange)
    (hval : ∀ b ∈ working_blocks, b.valid) :
    ∃ free, invert_busy_to_free working_blocks busy_ranges = .ok free
      ∧ ∀ r ∈ free, r.valid :=
  invertGo_ok_valid working_blocks (sortByStart busy_ranges) hval

theorem specWorkingBlocks_valid {wh : WorkingHours} {sd ed : Instant}
    (hlt : wh.start_time < wh.end_time) (hsd : sd < ed) :
    ∀ b ∈ specWorkingBlocks wh sd ed, b.valid := by
  intro b hb
  rcases List.mem_filterMap.mp hb with ⟨day, _, hbind⟩
  rcases Option.bind_eq_some.mp hbind with ⟨w, hw, hclip⟩
  have hwval : w.valid := by
    by_cases hmem : dayOfWeek day ∈ wh.exclude_weekdays
    · simp [specWorkingRangeFor, hmem] at hw
    · simp [specWorkingRangeFor, hmem] at hw
      rw [← hw]
      exact Nat.add_lt_add_left hlt _
  by_cases hout : w.«end» ≤ sd ∨ w.start ≥ ed
  · simp [specClip, hout] at hclip
  · simp [specClip, hout] at hclip
    rw [← hclip]
    show max w.start sd < min w.«end» ed
    push_neg at hout
    rw [Nat.max_lt, Nat.lt_min, Nat.lt_min]
    exact ⟨⟨hwval, hout.2⟩, hout.1, hsd⟩

theorem computeFreeTimes_ok_valid :
    ∀ (bt : List (String × List TimeRange)) (blocks : List TimeRange),
      (∀ b ∈ blocks, b.valid) →
      ∃ pft, computeFreeTimes blocks bt = .ok pft
        ∧ ∀ e ∈ pft, ∀ r ∈ e.snd, r.valid := by
  intro bt
  induction bt with
  | nil => intro blocks _; exact ⟨[], rfl, by simp⟩
  | cons e rest ih =>
    intro blocks hval
    rcases invert_ok_valid blocks e.snd hval with ⟨free, hok, hfval⟩
    rcases ih blocks hval with ⟨more, hmok, hmval⟩
    refine ⟨(e.fst, free) :: more, ?_, ?_⟩
    · show (do
        let f ← invert_busy_to_free blocks e.snd
        let m ← computeFreeTimes blocks rest
        pure ((e.fst, f) :: m)) = _
      rw [hok, hmok]
      rfl
    · intro x hx
      rcases List.mem_cons.mp hx with rfl | hx
      · exact hfval
      · exact hmval x hx

theorem intersectOne_ok_valid :
    ∀ (l2 : List TimeRange) (r1 : TimeRange), r1.valid → (∀ r ∈ l2, r.valid) →
      ∃ out, intersectOne r1 l2 = .ok out ∧ ∀ t ∈ out, t.valid := by
  intro l2
  induction l2 with
  | nil => intro r1 _ _; exact ⟨[], rfl, by simp⟩
  | cons r2 rest ih =>
    intro r1 h1 hval
    rcases ih r1 h1 (fun r hr => hval r (List.mem_cons_of_mem _ hr)) with ⟨rs, hok, hrval⟩
    by_cases hov : r1.overlaps r2
    · have hlt := overlap_max_lt_min h1 (hval r2 (List.mem_cons_self _ _)) hov
      refine ⟨⟨max r1.start r2.start, min r1.«end» r2.«end»⟩ :: rs, ?_, ?_⟩
      · show (do
          let o ← r1.intersect r2
          let rs2 ← intersectOne r1 rest
          pure (match o with | none => rs2 | some t => t :: rs2)) = _
        rw [TimeRange.intersect, if_neg (by simp [hov]), TimeRange.mk?_of_lt hlt]
        rw [show (do
            let t ← (Except.ok ⟨max r1.start r2.start, min r1.«end» r2.«end»⟩ :
              Except InvalidRangeError TimeRange)
            Except.ok (some t)) = Except.ok (α := Option TimeRange)
              (some ⟨max r1.start r2.start, min r1.«end» r2.«end»⟩) from rfl]
        rw [hok]
        rfl
      · intro t ht
        rcases List.mem_cons.mp ht with rfl | ht
        · exact hlt
        · exact hrval t ht
    · refine ⟨rs, ?_, hrval⟩
      show (do
        let o ← r1.intersect r2
        let rs2 ← intersectOne r1 rest
        pure (match o with | none => rs2 | some t => t :: rs2)) = _
      rw [TimeRange.intersect, if_pos (by simp [hov]), hok]
      rfl

theorem intersectAllPairs_ok_valid :
    ∀ (l1 l2 : List TimeRange), (∀ r ∈ l1, r.valid) → (∀ r ∈ l2, r.valid) →
      ∃ out, intersectAllPairs l2 l1 = .ok out ∧ ∀ t ∈ out, t.valid := by
  intro l1
  induction l1 with
  | nil => intro l2 _ _; exact ⟨[], rfl, by simp⟩
  | cons r1 rest ih =>
    intro l2 h1 h2
    rcases intersectOne_ok_valid l2 r1 (h1 r1 (List.mem_cons_self _ _)) h2
      with ⟨here, hok, hhval⟩
    rcases ih l2 (fun r hr => h1 r (List.mem_cons_of_mem _ hr)) h2 with ⟨more, hmok, hmval⟩
    refine ⟨here ++ more, ?_, ?_⟩
    · show (do
        let h ← intersectOne r1 l2
        let m ← intersectAllPairs l2 rest
        pure (h ++ m)) = _
      rw [hok, hmok]
      rfl
    · intro t ht
      rcases List.mem_append.mp ht with ht | ht
      · exact hhval t ht
      · exact hmval t ht

theorem mergeGo_ok_valid :
    ∀ (rest : List TimeRange) (last : TimeRange), last.valid → (∀ r ∈ rest, r.valid) →
      ∃ m, mergeGo last rest = .ok m ∧ ∀ e ∈ m, e.valid := by
  intro rest
  induction rest with
  | nil =>
    intro last hlast _
    refine ⟨[last], rfl, ?_⟩
    intro e he
    rcases List.mem_singleton.mp he with rfl
    exact hlast
  | cons current rest2 ih =>
    intro last hlast hval
    by_cases h : current.start ≤ last.«end»
    · have hm : last.start < max last.«end» current.«end» :=
        Nat.lt_of_lt_of_le hlast (Nat.le_max_left _ _)
      rcases ih ⟨last.start, max last.«end» current.«end»⟩ hm
        (fun r hr => hval r (List.mem_cons_of_mem _ hr)) with ⟨m, hok, hmval⟩
      refine ⟨m, ?_, hmval⟩
      simp only [mergeGo, h, if_true, TimeRange.mk?_of_lt hm]
      exact hok
    · rcases ih current (hval current (List.mem_cons_self _ _))
        (fun r hr => hval r (List.mem_cons_of_mem _ hr)) with ⟨ms, hok, hmval⟩
      refine ⟨last :: ms, ?_, ?_⟩
      · simp [mergeGo, h, hok]
      · intro e he
        rcases List.mem_cons.mp he with rfl | he
        · exact hlast
        · exact hmval e he

theorem merge_ok_valid (l : List TimeRange) (hval : ∀ r ∈ l, r.valid) :
    ∃ m, merge_adjacent_ranges l = .ok m ∧ ∀ e ∈ m, e.valid := by
  rw [merge_adjacent_ranges]
  cases hs : sortByStart l with
  | nil => exact ⟨[], rfl, by simp⟩
  | cons first rest =>
    have hmem : ∀ r ∈ sortByStart l, r.valid := fun r hr => hval r (mem_sortByStart.mp hr)
    rw [hs] at hmem
    exact mergeGo_ok_valid rest first (hmem first (List.mem_cons_self _ _))
      (fun r hr => hmem r (List.mem_cons_of_mem _ hr))

theorem intersect_two_lists_ok_valid (l1 l2 : List TimeRange)
    (h1 : ∀ r ∈ l1, r.valid) (h2 : ∀ r ∈ l2, r.valid) :
    ∃ out, intersect_two_lists l1 l2 = .ok out ∧ ∀ t ∈ out, t.valid := by
  rcases intersectAllPairs_ok_valid l1 l2 h1 h2 with ⟨inters, hok, hival⟩
  rcases merge_ok_valid inters hival with ⟨m, hmok, hmval⟩
  refine ⟨m, ?_, hmval⟩
  show (do
    let i ← intersectAllPairs l2 l1
    merge_adjacent_ranges i) = _
  rw [hok]
  simpa using hmok

theorem intersectFold_ok_valid :
    ∀ (ls : List (List TimeRange)) (acc : List TimeRange), (∀ r ∈ acc, r.valid) →
      (∀ l ∈ ls, ∀ r ∈ l, r.valid) →
      ∃ out, intersectFold acc ls = .ok out ∧ ∀ t ∈ out, t.valid := by
  intro ls
  induction ls with
  | nil => intro acc hacc _; exact ⟨acc, rfl, hacc⟩
  | cons l rest ih =>
    intro acc hacc hval
    rcases intersect_two_lists_ok_valid acc l hacc (hval l (List.mem_cons_self _ _))
      with ⟨acc2, hok, h2val⟩
    by_cases hemp : acc2.isEmpty
    · refine ⟨[], ?_, by simp⟩
      show (do
        let a ← intersect_two_lists acc l
        if a.isEmpty then pure [] else intersectFold a rest) = _
      rw [hok]
      show (if acc2.isEmpty then pure [] else intersectFold acc2 rest) = _
      rw [if_pos hemp]
      rfl
    · rcases ih acc2 h2val (fun x hx => hval x (List.mem_cons_of_mem _ hx))
        with ⟨out, hook, hoval⟩
      refine ⟨out, ?_, hoval⟩
      show (do
        let a ← intersect_two_lists acc l
        if a.isEmpty then pure [] else intersectFold a rest) = _
      rw [hok]
      show (if acc2.isEmpty then pure [] else intersectFold acc2 rest) = _
      rw [if_neg hemp]
      exact hook

theorem intersect_all_ok_valid (pft : List (String × List TimeRange))
    (hval : ∀ e ∈ pft, ∀ r ∈ e.snd, r.valid) :
    ∃ common, intersect_all_participants pft = .ok common ∧ ∀ t ∈ common, t.valid := by
  cases pft with
  | nil => exact ⟨[], rfl, by simp⟩
  | cons e rest =>
    exact intersectFold_ok_valid (rest.map Prod.snd) e.snd
      (hval e (List.mem_cons_self _ _))
      (fun l hl => by
        rcases List.mem_map.mp hl with ⟨x, hx, rfl⟩
        exact hval x (List.mem_cons_of_mem _ hx))

/-- C7 counterexample: the degenerate window `start_date = end_date = 10:00`
on a working day satisfies the claim's constraint `start_date <= end_date` and
carries perfectly valid inputs, yet the calculation itself raises
`InvalidRangeError` (from `_clip_range_to_bounds` constructing
`TimeRange(10:00, 10:00)`). -/
theorem find_slots_raises_on_degenerate_window :
    find_available_slots ⟨540, 1020, [5, 6]⟩ 600 600 [("a", [])] 30
      = .error ⟨600, 600⟩ := rfl

/-- C7 (amended: `start_date` strictly before `end_date`): with valid busy
ranges and a policy with `start_time < end_time`, `find_available_slots`
always completes with a result, never an `InvalidRangeError`. -/
theorem find_available_slots_total :
    ∀ (wh : WorkingHours) (sd ed : Instant) (bt : List (String × List TimeRange))
      (minD : Nat), wh.start_time < wh.end_time → sd < ed →
      (∀ e ∈ bt, ∀ r ∈ e.snd, r.valid) →
      ∃ slots, find_available_slots wh sd ed bt minD = .ok slots := by
  intro wh sd ed bt minD hlt hsd hval
  by_cases hp : (bt.map Prod.fst).isEmpty
  · exact ⟨[], by simp [find_available_slots, hp]⟩
  · have hgw : get_working_blocks wh sd ed = .ok (specWorkingBlocks wh sd ed) :=
      workingBlocksAux_eq_spec hlt hsd _ _
    by_cases hwb : (specWorkingBlocks wh sd ed).isEmpty
    · exact ⟨[], by simp [find_available_slots, hp, hgw, hwb]⟩
    · rcases computeFreeTimes_ok_valid bt (specWorkingBlocks wh sd ed)
        (specWorkingBlocks_valid hlt hsd) with ⟨pft, hft, hftval⟩
      rcases intersect_all_ok_valid pft hftval with ⟨common, hcm, _⟩
      refine ⟨(common.filter (fun tr => decide (tr.durationMinutes ≥ minD))).map
        (fun tr => ⟨tr, bt.map Prod.fst⟩), ?_⟩
      simp [find_available_slots, hp, hgw, hwb, hft, hcm]

/-- Witness for the amended C7 on a concrete valid input. -/
theorem find_available_slots_total_witness :
    ∃ slots, find_available_slots ⟨540, 1020, [5, 6]⟩ 540 1020
      [("a", [⟨600, 720⟩])] 30 = .ok slots :=
  find_available_slots_total ⟨540, 1020, [5, 6]⟩ 540 1020 [("a", [⟨600, 720⟩])] 30
    (by decide) (by decide) (by decide)

/-!
## C10 — result invariants

`GapChain l` says consecutive (in fact all pairs of) ranges are strictly
separated; `ContainedIn blocks r` says `r` lies inside one working block.
-/

theorem startOfDay_mod (t : Instant) : startOfDay t % minutesPerDay = 0 := by
  simp [startOfDay, minutesPerDay, Nat.mul_mod_left]

theorem startOfDay_of_mod {t : Instant} (h : t % minutesPerDay = 0) :
    startOfDay t = t := by
  rw [startOfDay]
  exact Nat.div_mul_cancel (Nat.dvd_of_mod_eq_zero h)


theorem workingBlocksAux_structure {wh : WorkingHours} {sd ed : Instant}
    (hlt : wh.start_time < wh.end_time) (h1440 : wh.end_time < minutesPerDay) :
    ∀ (fuel : Nat) (current : Instant) (blocks : List TimeRange),
      current % minutesPerDay = 0 →
      workingBlocksAux wh sd ed fuel current = .ok blocks →
      GapChain blocks ∧ ∀ b ∈ blocks, current ≤ b.start ∧ b.valid := by
  intro fuel
  induction fuel with
  | zero =>
    intro current blocks _ hok
    cases hok
    exact ⟨List.Pairwise.nil, by simp⟩
  | succ fuel ih =>
    intro current blocks hmod hok
    by_cases hcur : current ≤ ed
    · have hnext : (current + minutesPerDay) % minutesPerDay = 0 := by
        simp [Nat.add_mod, hmod]
      by_cases hwork : wh.is_working_day current
      · have hsod : startOfDay current = current := startOfDay_of_mod hmod
        have hw : wh.get_working_hours_for_day current
            = .ok (some ⟨current + wh.start_time, current + wh.end_time⟩) := by
          rw [WorkingHours.get_working_hours_for_day, if_neg (by simp [hwork]),
            hsod, TimeRange.mk?_of_lt (Nat.add_lt_add_left hlt _)]
          rfl
        set w : TimeRange := ⟨current + wh.start_time, current + wh.end_time⟩ with hwdef
        by_cases hclip : w.«end» ≤ sd ∨ w.start ≥ ed
        · have hc : clip_range_to_bounds w sd ed = .ok none := by
            rw [clip_range_to_bounds, if_pos hclip]
          have hstep : workingBlocksAux wh sd ed (fuel + 1) current
              = (do
                  let rest ← workingBlocksAux wh sd ed fuel (current + minutesPerDay)
                  pure (([] : List TimeRange) ++ rest)) := by
            simp [workingBlocksAux, hcur, hw, hc]
          rw [hstep] at hok
          cases hrest : workingBlocksAux wh sd ed fuel (current + minutesPerDay) with
          | error e => rw [hrest] at hok; simp at hok
          | ok rest =>
            rw [hrest] at hok
            simp at hok
            rcases ih (current + minutesPerDay) rest hnext hrest with ⟨hgap, hbnd⟩
            subst hok
            refine ⟨hgap, ?_⟩
            intro b hb
            rcases hbnd b hb with ⟨hbs, hbv⟩
            exact ⟨Nat.le_trans (Nat.le_add_right _ _) hbs, hbv⟩
        · cases hmk : TimeRange.mk? (max w.start sd) (min w.«end» ed) with
          | error e =>
            have hc : clip_range_to_bounds w sd ed = .error e := by
              rw [clip_range_to_bounds, if_neg hclip, hmk]
              rfl
            have hstep : workingBlocksAux wh sd ed (fuel + 1) current = .error e := by
              simp [workingBlocksAux, hcur, hw, hc]
            rw [hstep] at hok
            simp at hok
          | ok c =>
            rcases TimeRange.mk?_ok_valid hmk with ⟨rfl, hcval⟩
            have hc : clip_range_to_bounds w sd ed
                = .ok (some ⟨max w.start sd, min w.«end» ed⟩) := by
              rw [clip_range_to_bounds, if_neg hclip, hmk]
              rfl
            have hstep : workingBlocksAux wh sd ed (fuel + 1) current
                = (do
                    let rest ← workingBlocksAux wh sd ed fuel (current + minutesPerDay)
                    pure (⟨max w.start sd, min w.«end» ed⟩ :: rest)) := by
              simp [workingBlocksAux, hcur, hw, hc]
            rw [hstep] at hok
            cases hrest : workingBlocksAux wh sd ed fuel (current + minutesPerDay) with
            | error e => rw [hrest] at hok; simp at hok
            | ok rest =>
              rw [hrest] at hok
              simp at hok
              rcases ih (current + minutesPerDay) rest hnext hrest with ⟨hgap, hbnd⟩
              subst hok
              have hcstart : current ≤ max w.start sd :=
                Nat.le_trans (Nat.le_add_right _ _) (Nat.le_max_left _ _)
              have hcend : min w.«end» ed < current + minutesPerDay :=
                Nat.lt_of_le_of_lt (Nat.min_le_left _ _) (Nat.add_lt_add_left h1440 _)
              constructor
              · refine List.Pairwise.cons ?_ hgap
                intro y hy
                exact Nat.lt_of_lt_of_le hcend (hbnd y hy).1
              · intro b hb
                rcases List.mem_cons.mp hb with rfl | hb
                · exact ⟨hcstart, hcval⟩
                · rcases hbnd b hb with ⟨hbs, hbv⟩
                  exact ⟨Nat.le_trans (Nat.le_add_right _ _) hbs, hbv⟩
      · have hw : wh.get_working_hours_for_day current = .ok none := by
          rw [WorkingHours.get_working_hours_for_day, if_pos (by simp [hwork])]
        have hstep : workingBlocksAux wh sd ed (fuel + 1) current
            = (do
                let rest ← workingBlocksAux wh sd ed fuel (current + minutesPerDay)
                pure (([] : List TimeRange) ++ rest)) := by
          simp [workingBlocksAux, hcur, hw]
        rw [hstep] at hok
        cases hrest : workingBlocksAux wh sd ed fuel (current + minutesPerDay) with
        | error e => rw [hrest] at hok; simp at hok
        | ok rest =>
          rw [hrest] at hok
          simp at hok
          rcases ih (current + minutesPerDay) rest
            (by simp [Nat.add_mod, hmod]) hrest with ⟨hgap, hbnd⟩
          subst hok
          refine ⟨hgap, ?_⟩
          intro b hb
          rcases hbnd b hb with ⟨hbs, hbv⟩
          exact ⟨Nat.le_trans (Nat.le_add_right _ _) hbs, hbv⟩
    · have hstep : workingBlocksAux wh sd ed (fuel + 1) current = .ok [] := by
        simp [workingBlocksAux, hcur]
      rw [hstep] at hok
      cases hok
      exact ⟨List.Pairwise.nil, by simp⟩

theorem get_working_blocks_structure {wh : WorkingHours} {sd ed : Instant}
    {blocks : List TimeRange}
    (hlt : wh.start_time < wh.end_time) (h1440 : wh.end_time < minutesPerDay)
    (hok : get_working_blocks wh sd ed = .ok blocks) :
    GapChain blocks ∧ ∀ b ∈ blocks, b.valid := by
  rcases workingBlocksAux_structure hlt h1440 _ _ _ (startOfDay_mod sd) hok with ⟨hgap, hbnd⟩
  exact ⟨hgap, fun b hb => (hbnd b hb).2⟩

theorem subtractGo_structure {B : TimeRange} (hB : B.valid) :
    ∀ (l : List TimeRange) (cursor : Instant) (free : List TimeRange),
      (∀ b ∈ l, b.valid ∧ B.overlaps b = true) →
      subtractGo B cursor l = .ok free →
      GapChain free ∧ ∀ r ∈ free, cursor ≤ r.start ∧ r.«end» ≤ B.«end» := by
  intro l
  induction l with
  | nil =>
    intro cursor free _ hok
    by_cases h : cursor < B.«end»
    · rw [subtractGo, if_pos h, TimeRange.mk?_of_lt h] at hok
      simp at hok
      subst hok
      refine ⟨List.pairwise_singleton _ _, ?_⟩
      intro r hr
      rcases List.mem_singleton.mp hr with rfl
      exact ⟨Nat.le_refl _, Nat.le_refl _⟩
    · rw [subtractGo, if_neg h] at hok
      simp at hok
      subst hok
      exact ⟨List.Pairwise.nil, by simp⟩
  | cons b rest ih =>
    intro cursor free hval hok
    have hbv := (hval b (List.mem_cons_self _ _)).1
    have hbo := (hval b (List.mem_cons_self _ _)).2
    have hov := TimeRange.overlaps_iff.mp hbo
    have hcecs : max b.start B.start < min b.«end» B.«end» := by
      rw [Nat.max_lt, Nat.lt_min, Nat.lt_min]
      exact ⟨⟨hbv, hov.2⟩, hov.1, hB⟩
    by_cases h : cursor < max b.start B.start
    · rw [subtractGo] at hok
      simp only [h, if_true, TimeRange.mk?_of_lt h, except_ok_bind] at hok
      cases hrest : subtractGo B (max cursor (min b.«end» B.«end»)) rest with
      | error e => rw [hrest] at hok; simp at hok
      | ok free2 =>
        rw [hrest] at hok
        simp at hok
        subst hok
        rcases ih (max cursor (min b.«end» B.«end»)) free2
          (fun x hx => hval x (List.mem_cons_of_mem _ hx)) hrest with ⟨hgap, hbnd⟩
        constructor
        · refine List.Pairwise.cons ?_ hgap
          intro y hy
          have hy1 := (hbnd y hy).1
          have : min b.«end» B.«end» ≤ max cursor (min b.«end» B.«end») :=
            Nat.le_max_right _ _
          show max b.start B.start < y.start
          exact Nat.lt_of_lt_of_le hcecs (Nat.le_trans this hy1)
        · intro r hr
          rcases List.mem_cons.mp hr with rfl | hr
          · exact ⟨Nat.le_refl _, Nat.le_of_lt (Nat.lt_of_lt_of_le hcecs (Nat.min_le_right _ _))⟩
          · rcases hbnd r hr with ⟨h1, h2⟩
            exact ⟨Nat.le_trans (Nat.le_max_left _ _) h1, h2⟩
    · rw [subtractGo] at hok
      simp only [h, if_false] at hok
      rcases ih (max cursor (min b.«end» B.«end»)) free
        (fun x hx => hval x (List.mem_cons_of_mem _ hx)) hok with ⟨hgap, hbnd⟩
      refine ⟨hgap, ?_⟩
      intro r hr
      rcases hbnd r hr with ⟨h1, h2⟩
      exact ⟨Nat.le_trans (Nat.le_max_left _ _) h1, h2⟩

theorem invertGo_structure :
    ∀ (blocks sorted_busy free : List TimeRange),
      (∀ b ∈ blocks, b.valid) →
      (∀ b ∈ sorted_busy, b.valid) →
      GapChain blocks →
      invertGo sorted_busy blocks = .ok free →
      GapChain free ∧ ∀ r ∈ free, ContainedIn blocks r := by
  intro blocks
  induction blocks with
  | nil =>
    intro sb free _ _ _ hok
    cases hok
    exact ⟨List.Pairwise.nil, by simp⟩
  | cons wb rest ih =>
    intro sb free hbval hsval hgap hok
    have hwbv : wb.valid := hbval wb (List.mem_cons_self _ _)
    have hpc := List.pairwise_cons.mp hgap
    have hgaprest : GapChain rest := hpc.2
    have hgaphead : ∀ y ∈ rest, wb.«end» < y.start := hpc.1
    rw [invertGo] at hok
    by_cases hemp : (sb.filter (fun busy => wb.overlaps busy)).isEmpty
    · simp only [hemp, if_true, except_pure_eq, except_ok_bind] at hok
      cases hrest : invertGo sb rest with
      | error e => rw [hrest] at hok; simp at hok
      | ok others =>
        rw [hrest] at hok
        simp at hok
        subst hok
        rcases ih sb others (fun b hb => hbval b (List.mem_cons_of_mem _ hb))
          hsval hgaprest hrest with ⟨hogap, hocont⟩
        constructor
        · refine List.Pairwise.cons ?_ hogap
          intro y hy
          rcases hocont y hy with ⟨blk, hblk, hbs, _⟩
          exact Nat.lt_of_lt_of_le (hgaphead blk hblk) hbs
        · intro r hr
          rcases List.mem_cons.mp hr with rfl | hr
          · exact ⟨r, List.mem_cons_self _ _, Nat.le_refl _, Nat.le_refl _⟩
          · rcases hocont r hr with ⟨blk, hblk, h1, h2⟩
            exact ⟨blk, List.mem_cons_of_mem _ hblk, h1, h2⟩
    · simp only [hemp, if_false] at hok
      cases hhere : subtract_busy_from_block wb (sb.filter (fun busy => wb.overlaps busy)) with
      | error e => rw [hhere] at hok; simp at hok
      | ok here =>
        rw [hhere] at hok
        simp only [except_ok_bind] at hok
        cases hrest : invertGo sb rest with
        | error e => rw [hrest] at hok; simp at hok
        | ok others =>
          rw [hrest] at hok
          simp at hok
          subst hok
          have hfiltval : ∀ x ∈ sortByStart (sb.filter (fun busy => wb.overlaps busy)),
              x.valid ∧ wb.overlaps x = true := by
            intro x hx
            have hx2 := mem_sortByStart.mp hx
            rcases List.mem_filter.mp hx2 with ⟨hxm, hxov⟩
            exact ⟨hsval x hxm, hxov⟩
          rcases subtractGo_structure hwbv _ wb.start here hfiltval hhere with ⟨hhgap, hhbnd⟩
          rcases ih sb others (fun b hb => hbval b (List.mem_cons_of_mem _ hb))
            hsval hgaprest hrest with ⟨hogap, hocont⟩
          constructor
          · show List.Pairwise (fun a b => a.«end» < b.start) (here ++ others)
            rw [List.pairwise_append]
            refine ⟨hhgap, hogap, ?_⟩
            intro x hx y hy
            rcases hocont y hy with ⟨blk, hblk, hbs, _⟩
            exact Nat.lt_of_le_of_lt ((hhbnd x hx).2)
              (Nat.lt_of_lt_of_le (hgaphead blk hblk) hbs)
          · intro r hr
            rcases List.mem_append.mp hr with hr | hr
            · exact ⟨wb, List.mem_cons_self _ _, (hhbnd r hr).1, (hhbnd r hr).2⟩
            · rcases hocont r hr with ⟨blk, hblk, h1, h2⟩
              exact ⟨blk, List.mem_cons_of_mem _ hblk, h1, h2⟩

theorem pairwise_insertByStart {r : TimeRange} {l : List TimeRange}
    (h : List.Pairwise (fun a b => a.start ≤ b.start) l) :
    List.Pairwise (fun a b => a.start ≤ b.start) (insertByStart r l) := by
  induction l with
  | nil => exact List.pairwise_singleton _ _
  | cons s rest ih =>
    rcases List.pairwise_cons.mp h with ⟨hhead, htail⟩
    by_cases hle : r.start ≤ s.start
    · rw [insertByStart, if_pos hle]
      refine List.Pairwise.cons ?_ h
      intro y hy
      rcases List.mem_cons.mp hy with rfl | hy
      · exact hle
      · exact Nat.le_trans hle (hhead y hy)
    · rw [insertByStart, if_neg hle]
      refine List.Pairwise.cons ?_ (ih htail)
      intro y hy
      rcases mem_insertByStart.mp hy with rfl | hy
      · exact Nat.le_of_not_le hle
      · exact hhead y hy

theorem sortByStart_sorted (l : List TimeRange) :
    List.Pairwise (fun a b => a.start ≤ b.start) (sortByStart l) := by
  induction l with
  | nil => exact List.Pairwise.nil
  | cons r rest ih => exact pairwise_insertByStart ih

theorem intersectOne_contained :
    ∀ (l2 : List TimeRange) (r1 : TimeRange) (out : List TimeRange),
      intersectOne r1 l2 = .ok out →
      ∀ t ∈ out, r1.start ≤ t.start ∧ t.«end» ≤ r1.«end» := by
  intro l2
  induction l2 with
  | nil =>
    intro r1 out hok
    cases hok
    simp
  | cons r2 rest ih =>
    intro r1 out hok
    rw [intersectOne] at hok
    by_cases hov : r1.overlaps r2
    · cases hmk : TimeRange.mk? (max r1.start r2.start) (min r1.«end» r2.«end») with
      | error e =>
        have hint : r1.intersect r2 = .error e := by
          rw [TimeRange.intersect, if_neg (by simp [hov]), hmk]
          rfl
        rw [hint] at hok
        simp at hok
      | ok t0 =>
        rcases TimeRange.mk?_ok_valid hmk with ⟨rfl, _⟩
        have hint : r1.intersect r2
            = .ok (some ⟨max r1.start r2.start, min r1.«end» r2.«end»⟩) := by
          rw [TimeRange.intersect, if_neg (by simp [hov]), hmk]
          rfl
        rw [hint] at hok
        simp only [except_ok_bind] at hok
        cases hrest : intersectOne r1 rest with
        | error e => rw [hrest] at hok; simp at hok
        | ok rs =>
          rw [hrest] at hok
          simp at hok
          subst hok
          intro t ht
          rcases List.mem_cons.mp ht with rfl | ht
          · exact ⟨Nat.le_max_left _ _, Nat.min_le_left _ _⟩
          · exact ih r1 rs hrest t ht
    · have hint : r1.intersect r2 = .ok none := by
        rw [TimeRange.intersect, if_pos (by simp [hov])]
      rw [hint] at hok
      simp only [except_ok_bind] at hok
      cases hrest : intersectOne r1 rest with
      | error e => rw [hrest] at hok; simp at hok
      | ok rs =>
        rw [hrest] at hok
        simp at hok
        subst hok
        exact ih r1 rs hrest

theorem intersectAllPairs_contained :
    ∀ (l1 l2 out : List TimeRange),
      intersectAllPairs l2 l1 = .ok out →
      ∀ t ∈ out, ∃ r1 ∈ l1, r1.start ≤ t.start ∧ t.«end» ≤ r1.«end» := by
  intro l1
  induction l1 with
  | nil =>
    intro l2 out hok
    cases hok
    simp
  | cons r1 rest ih =>
    intro l2 out hok
    rw [intersectAllPairs] at hok
    cases hhere : intersectOne r1 l2 with
    | error e => rw [hhere] at hok; simp at hok
    | ok here =>
      rw [hhere] at hok
      simp only [except_ok_bind] at hok
      cases hmore : intersectAllPairs l2 rest with
      | error e => rw [hmore] at hok; simp at hok
      | ok more =>
        rw [hmore] at hok
        simp at hok
        subst hok
        intro t ht
        rcases List.mem_append.mp ht with ht | ht
        · exact ⟨r1, List.mem_cons_self _ _, intersectOne_contained l2 r1 here hhere t ht⟩
        · rcases ih l2 more hmore t ht with ⟨r', hr', hb⟩
          exact ⟨r', List.mem_cons_of_mem _ hr', hb⟩

theorem pairwise_total {R : TimeRange → TimeRange → Prop} :
    ∀ {l : List TimeRange}, List.Pairwise R l →
      ∀ {x y : TimeRange}, x ∈ l → y ∈ l → x = y ∨ R x y ∨ R y x := by
  intro l h
  induction h with
  | nil => intro x y hx _; cases hx
  | @cons a l2 hhead _ ih =>
    intro x y hx hy
    rcases List.mem_cons.mp hx with hxa | hx
    · rcases List.mem_cons.mp hy with hya | hy
      · exact Or.inl (hxa.trans hya.symm)
      · exact Or.inr (Or.inl (by rw [hxa]; exact hhead y hy))
    · rcases List.mem_cons.mp hy with hya | hy
      · exact Or.inr (Or.inr (by rw [hya]; exact hhead x hx))
      · exact ih hx hy

theorem mergeGo_structure {blocks : List TimeRange} (hblocks : GapChain blocks) :
    ∀ (rest : List TimeRange) (last : TimeRange) (m : List TimeRange),
      last.valid →
      (∀ r ∈ rest, r.valid) →
      ContainedIn blocks last →
      (∀ r ∈ rest, ContainedIn blocks r) →
      (∀ r ∈ rest, last.start ≤ r.start) →
      List.Pairwise (fun a b => a.start ≤ b.start) rest →
      mergeGo last rest = .ok m →
      GapChain m ∧ (∀ e ∈ m, ContainedIn blocks e) ∧ (∀ e ∈ m, last.start ≤ e.start) := by
  intro rest
  induction rest with
  | nil =>
    intro last m hlastv _ hlastc _ _ _ hok
    cases hok
    refine ⟨List.pairwise_singleton _ _, ?_, ?_⟩
    · intro e he
      rcases List.mem_singleton.mp he with rfl
      exact hlastc
    · intro e he
      rcases List.mem_singleton.mp he with rfl
      exact Nat.le_refl _
  | cons current rest2 ih =>
    intro last m hlastv hrv hlastc hrc hrs hsorted hok
    have hcv : current.valid := hrv current (List.mem_cons_self _ _)
    have hcc : ContainedIn blocks current := hrc current (List.mem_cons_self _ _)
    have hcs : last.start ≤ current.start := hrs current (List.mem_cons_self _ _)
    have hsortedhead := (List.pairwise_cons.mp hsorted).1
    have hsorted2 := (List.pairwise_cons.mp hsorted).2
    by_cases h : current.start ≤ last.«end»
    · have hm : last.start < max last.«end» current.«end» :=
        Nat.lt_of_lt_of_le hlastv (Nat.le_max_left _ _)
      rcases hlastc with ⟨b1, hb1, hb1s, hb1e⟩
      rcases hcc with ⟨b2, hb2, hb2s, hb2e⟩
      have hmerged : ContainedIn blocks ⟨last.start, max last.«end» current.«end»⟩ := by
        rcases pairwise_total hblocks hb1 hb2 with heq | hR | hR
        · refine ⟨b1, hb1, hb1s, ?_⟩
          show max last.«end» current.«end» ≤ b1.«end»
          exact Nat.max_le.mpr ⟨hb1e, by rw [heq]; exact hb2e⟩
        · exact absurd (Nat.le_trans (Nat.le_trans hb2s (Nat.le_trans h hb1e))
            (Nat.le_of_lt hR)) (Nat.not_le.mpr (Nat.lt_of_le_of_lt hb2s
              (Nat.lt_of_le_of_lt h (Nat.lt_of_le_of_lt hb1e hR))))
        · refine ⟨b1, hb1, hb1s, ?_⟩
          show max last.«end» current.«end» ≤ b1.«end»
          refine Nat.max_le.mpr ⟨hb1e, ?_⟩
          have : current.«end» < last.start :=
            Nat.lt_of_le_of_lt hb2e (Nat.lt_of_lt_of_le hR hb1s)
          exact Nat.le_trans (Nat.le_of_lt (Nat.lt_trans this hlastv)) hb1e
      rw [mergeGo] at hok
      simp only [h, if_true, TimeRange.mk?_of_lt hm, except_ok_bind] at hok
      rcases ih ⟨last.start, max last.«end» current.«end»⟩ m hm
        (fun r hr => hrv r (List.mem_cons_of_mem _ hr)) hmerged
        (fun r hr => hrc r (List.mem_cons_of_mem _ hr))
        (fun r hr => hrs r (List.mem_cons_of_mem _ hr)) hsorted2 hok
        with ⟨g1, g2, g3⟩
      exact ⟨g1, g2, g3⟩
    · rw [mergeGo] at hok
      simp only [h, if_false] at hok
      cases hms : mergeGo current rest2 with
      | error e => rw [hms] at hok; simp at hok
      | ok ms =>
        rw [hms] at hok
        simp at hok
        subst hok
        rcases ih current ms hcv
          (fun r hr => hrv r (List.mem_cons_of_mem _ hr)) hcc
          (fun r hr => hrc r (List.mem_cons_of_mem _ hr))
          hsortedhead hsorted2 hms with ⟨g1, g2, g3⟩
        refine ⟨?_, ?_, ?_⟩
        · refine List.Pairwise.cons ?_ g1
          intro y hy
          exact Nat.lt_of_lt_of_le (Nat.lt_of_not_le h) (g3 y hy)
        · intro e he
          rcases List.mem_cons.mp he with rfl | he
          · exact hlastc
          · exact g2 e he
        · intro e he
          rcases List.mem_cons.mp he with rfl | he
          · exact Nat.le_refl _
          · exact Nat.le_trans hcs (g3 e he)

theorem merge_structure {blocks : List TimeRange} (hblocks : GapChain blocks)
    (l m : List TimeRange)
    (hval : ∀ r ∈ l, r.valid) (hcont : ∀ r ∈ l, ContainedIn blocks r)
    (hok : merge_adjacent_ranges l = .ok m) :
    GapChain m ∧ ∀ e ∈ m, ContainedIn blocks e := by
  rw [merge_adjacent_ranges] at hok
  cases hs : sortByStart l with
  | nil =>
    rw [hs] at hok
    cases hok
    exact ⟨List.Pairwise.nil, by simp⟩
  | cons first rest =>
    rw [hs] at hok
    have hsorted := sortByStart_sorted l
    rw [hs] at hsorted
    have hmemv : ∀ r ∈ first :: rest, r.valid := by
      intro r hr
      rw [← hs] at hr
      exact hval r (mem_sortByStart.mp hr)
    have hmemc : ∀ r ∈ first :: rest, ContainedIn blocks r := by
      intro r hr
      rw [← hs] at hr
      exact hcont r (mem_sortByStart.mp hr)
    rcases mergeGo_structure hblocks rest first m
      (hmemv first (List.mem_cons_self _ _))
      (fun r hr => hmemv r (List.mem_cons_of_mem _ hr))
      (hmemc first (List.mem_cons_self _ _))
      (fun r hr => hmemc r (List.mem_cons_of_mem _ hr))
      (List.pairwise_cons.mp hsorted).1
      (List.pairwise_cons.mp hsorted).2 hok with ⟨g1, g2, _⟩
    exact ⟨g1, g2⟩

theorem intersect_two_lists_structure {blocks : List TimeRange} (hblocks : GapChain blocks)
    (l1 l2 out : List TimeRange)
    (h1v : ∀ r ∈ l1, r.valid) (h2v : ∀ r ∈ l2, r.valid)
    (h1c : ∀ r ∈ l1, ContainedIn blocks r)
    (hok : intersect_two_lists l1 l2 = .ok out) :
    GapChain out ∧ (∀ t ∈ out, ContainedIn blocks t) ∧ ∀ t ∈ out, t.valid := by
  have hok2 : (do
      let intersections ← intersectAllPairs l2 l1
      merge_adjacent_ranges intersections) = Except.ok out := hok
  cases hi : intersectAllPairs l2 l1 with
  | error e => rw [hi] at hok2; simp at hok2
  | ok inters =>
    rw [hi] at hok2
    simp only [except_ok_bind] at hok2
    have hiv : ∀ t ∈ inters, t.valid := by
      rcases intersectAllPairs_ok_valid l1 l2 h1v h2v with ⟨out', hok', hv'⟩
      rw [hok'] at hi
      cases hi
      exact hv'
    have hic : ∀ t ∈ inters, ContainedIn blocks t := by
      intro t ht
      rcases intersectAllPairs_contained l1 l2 inters hi t ht with ⟨r1, hr1, hb1, hb2⟩
      rcases h1c r1 hr1 with ⟨blk, hblk, hs, he⟩
      exact ⟨blk, hblk, Nat.le_trans hs hb1, Nat.le_trans hb2 he⟩
    have hmv : ∀ t ∈ out, t.valid := by
      rcases merge_ok_valid inters hiv with ⟨m', hok', hv'⟩
      rw [hok'] at hok2
      cases hok2
      exact hv'
    rcases merge_structure hblocks inters out hiv hic hok2 with ⟨g1, g2⟩
    exact ⟨g1, g2, hmv⟩

theorem intersectFold_structure {blocks : List TimeRange} (hblocks : GapChain blocks) :
    ∀ (ls : List (List TimeRange)) (acc out : List TimeRange),
      (∀ r ∈ acc, r.valid) → (∀ r ∈ acc, ContainedIn blocks r) → GapChain acc →
      (∀ l ∈ ls, ∀ r ∈ l, r.valid) →
      intersectFold acc ls = .ok out →
      GapChain out ∧ (∀ t ∈ out, ContainedIn blocks t) ∧ ∀ t ∈ out, t.valid := by
  intro ls
  induction ls with
  | nil =>
    intro acc out haccv haccc haccg _ hok
    cases hok
    exact ⟨haccg, haccc, haccv⟩
  | cons l rest ih =>
    intro acc out haccv haccc haccg hlv hok
    have hok2 : (do
        let acc2 ← intersect_two_lists acc l
        if acc2.isEmpty then pure [] else intersectFold acc2 rest) = Except.ok out := hok
    cases h2 : intersect_two_lists acc l with
    | error e => rw [h2] at hok2; simp at hok2
    | ok acc2 =>
      rw [h2] at hok2
      simp only [except_ok_bind] at hok2
      rcases intersect_two_lists_structure hblocks acc l acc2 haccv
        (hlv l (List.mem_cons_self _ _)) haccc h2 with ⟨g1, g2, g3⟩
      by_cases hemp : acc2.isEmpty
      · rw [if_pos hemp] at hok2
        cases hok2
        exact ⟨List.Pairwise.nil, by simp, by simp⟩
      · rw [if_neg hemp] at hok2
        exact ih acc2 out g3 g2 g1 (fun x hx => hlv x (List.mem_cons_of_mem _ hx)) hok2

theorem intersect_all_structure {blocks : List TimeRange} (hblocks : GapChain blocks)
    (pft : List (String × List TimeRange)) (out : List TimeRange)
    (hv : ∀ e ∈ pft, (∀ r ∈ e.snd, r.valid)
      ∧ (∀ r ∈ e.snd, ContainedIn blocks r) ∧ GapChain e.snd)
    (hok : intersect_all_participants pft = .ok out) :
    GapChain out ∧ (∀ t ∈ out, ContainedIn blocks t) ∧ ∀ t ∈ out, t.valid := by
  cases pft with
  | nil =>
    cases hok
    exact ⟨List.Pairwise.nil, by simp, by simp⟩
  | cons e rest =>
    rcases hv e (List.mem_cons_self _ _) with ⟨hev, hec, heg⟩
    refine intersectFold_structure hblocks (rest.map Prod.snd) e.snd out hev hec heg ?_ hok
    intro l hl
    rcases List.mem_map.mp hl with ⟨x, hx, rfl⟩
    exact (hv x (List.mem_cons_of_mem _ hx)).1

theorem computeFreeTimes_structure :
    ∀ (bt : List (String × List TimeRange)) (blocks : List TimeRange)
      (pft : List (String × List TimeRange)),
      (∀ b ∈ blocks, b.valid) → GapChain blocks →
      (∀ e ∈ bt, ∀ r ∈ e.snd, r.valid) →
      computeFreeTimes blocks bt = .ok pft →
      ∀ e ∈ pft, (∀ r ∈ e.snd, r.valid)
        ∧ (∀ r ∈ e.snd, ContainedIn blocks r) ∧ GapChain e.snd := by
  intro bt
  induction bt with
  | nil =>
    intro blocks pft _ _ _ hok
    cases hok
    simp
  | cons ebt rest ih =>
    intro blocks pft hbv hbg hval hok
    have hok2 : (do
        let free ← invert_busy_to_free blocks ebt.snd
        let more ← computeFreeTimes blocks rest
        pure ((ebt.fst, free) :: more)) = Except.ok pft := hok
    cases hf : invert_busy_to_free blocks ebt.snd with
    | error e => rw [hf] at hok2; simp at hok2
    | ok free =>
      rw [hf] at hok2
      simp only [except_ok_bind] at hok2
      cases hm : computeFreeTimes blocks rest with
      | error e => rw [hm] at hok2; simp at hok2
      | ok more =>
        rw [hm] at hok2
        simp at hok2
        subst hok2
        have hfree : (∀ r ∈ free, r.valid)
            ∧ (∀ r ∈ free, ContainedIn blocks r) ∧ GapChain free := by
          have hfv : ∀ r ∈ free, r.valid := by
            rcases invert_ok_valid blocks ebt.snd hbv with ⟨free', hok', hv'⟩
            rw [hok'] at hf
            cases hf
            exact hv'
          have hsbv : ∀ b ∈ sortByStart ebt.snd, b.valid := fun b hb =>
            hval ebt (List.mem_cons_self _ _) b (mem_sortByStart.mp hb)
          rcases invertGo_structure blocks (sortByStart ebt.snd) free hbv hsbv hbg hf
            with ⟨hg, hc⟩
          exact ⟨hfv, hc, hg⟩
        intro e he
        rcases List.mem_cons.mp he with rfl | he
        · exact hfree
        · exact ih blocks more hbv hbg
            (fun x hx => hval x (List.mem_cons_of_mem _ hx)) hm e he

/-- C10: for valid input (window bounds ordered, valid busy ranges, a policy
with `start_time < end_time` — times-of-day being below 24h), any slot list
returned by `find_available_slots` is sorted by strictly increasing start, its
ranges are pairwise disjoint and non-adjacent (each next start strictly after
the previous end), and every slot lies inside one of the window's working
blocks; the single-participant path (no merge step) included. -/
theorem find_available_slots_invariants :
    ∀ (wh : WorkingHours) (sd ed : Instant) (bt : List (String × List TimeRange))
      (minD : Nat) (slots : List TimeSlot) (blocks : List TimeRange),
      wh.start_time < wh.end_time → wh.end_time < minutesPerDay → sd ≤ ed →
      (∀ e ∈ bt, ∀ r ∈ e.snd, r.valid) →
      find_available_slots wh sd ed bt minD = .ok slots →
      get_working_blocks wh sd ed = .ok blocks →
      List.Pairwise (fun a b : TimeSlot =>
        a.time_range.start < b.time_range.start
        ∧ a.time_range.«end» < b.time_range.start) slots
      ∧ ∀ s ∈ slots, ∃ blk ∈ blocks, blk.start ≤ s.time_range.start
          ∧ s.time_range.«end» ≤ blk.«end» := by
  intro wh sd ed bt minD slots blocks hlt h1440 _ hval hfind hgw
  by_cases hp : (bt.map Prod.fst).isEmpty
  · simp [find_available_slots, hp] at hfind
    subst hfind
    exact ⟨List.Pairwise.nil, by simp⟩
  · by_cases hwb : blocks.isEmpty
    · simp [find_available_slots, hp, hgw, hwb] at hfind
      subst hfind
      exact ⟨List.Pairwise.nil, by simp⟩
    · cases hft : computeFreeTimes blocks bt with
      | error e => simp [find_available_slots, hp, hgw, hwb, hft] at hfind
      | ok pft =>
        cases hcm : intersect_all_participants pft with
        | error e => simp [find_available_slots, hp, hgw, hwb, hft, hcm] at hfind
        | ok common =>
          simp [find_available_slots, hp, hgw, hwb, hft, hcm] at hfind
          rcases get_working_blocks_structure hlt h1440 hgw with ⟨hbg, hbv⟩
          have hpft := computeFreeTimes_structure bt blocks pft hbv hbg hval hft
          rcases intersect_all_structure hbg pft common hpft hcm with ⟨hcg, hcc, hcv⟩
          rw [← hfind]
          constructor
          · rw [List.pairwise_map]
            refine List.Pairwise.imp_of_mem ?_ (List.Pairwise.filter _ hcg)
            intro a b ha hb hgap
            have hav : a.valid := hcv a (List.mem_of_mem_filter ha)
            exact ⟨Nat.lt_trans hav hgap, hgap⟩
          · intro s hs
            rcases List.mem_map.mp hs with ⟨tr, htr, rfl⟩
            exact hcc tr (List.mem_of_mem_filter htr)

/-- Witness for C10: a single participant (no merge step runs), one working
day, one busy interval; the two returned slots are ordered, separated, and
inside the day's working block. -/
theorem find_available_slots_invariants_witness :
    List.Pairwise (fun a b : TimeSlot =>
      a.time_range.start < b.time_range.start
      ∧ a.time_range.«end» < b.time_range.start)
      [TimeSlot.mk ⟨540, 600⟩ ["a"], TimeSlot.mk ⟨720, 1020⟩ ["a"]]
    ∧ ∀ s ∈ [TimeSlot.mk ⟨540, 600⟩ ["a"], TimeSlot.mk ⟨720, 1020⟩ ["a"]],
        ∃ blk ∈ [(⟨540, 1020⟩ : TimeRange)], blk.start ≤ s.time_range.start
          ∧ s.time_range.«end» ≤ blk.«end» :=
  find_available_slots_invariants ⟨540, 1020, [5, 6]⟩ 0 1439 [("a", [⟨600, 720⟩])] 30
    [TimeSlot.mk ⟨540, 600⟩ ["a"], TimeSlot.mk ⟨720, 1020⟩ ["a"]] [⟨540, 1020⟩]
    (by decide) (by decide) (by decide) (by decide) (by rfl) (by rfl)
